import Mathlib

/-!
Verification development for the CommitPulse ingestion-and-streak engine.

The definitions below shallowly embed the core modules:
* the streak calculator (`computeCurrentStreakFromDateKeys`, `touchesLookbackBoundary`),
* the commit-ingestion mutation (`saveCommit`) and its daily-aggregate update,
* the sync-job queue mutations (`enqueueSyncJob`, `failSyncJob`),
* the reminder engine's quiet-hour check (`isQuietHour`) and per-tick loop
  (`sendSmartReminders`).

Date keys are represented by their parsed day stamps (the image of the source's
`dateKeyToDayStamp`): UTC-midnight-anchored epoch milliseconds, i.e. integer
multiples of `DAY_MS`.  The string-parsing layer itself (`Intl` formatting and
`Date.parse`) is host-locale code outside the embedding; likewise the time-zone
hour/day-key resolution of the reminder engine is passed in as an explicit
function argument.  JavaScript numbers that only ever hold integers are
modelled as `Int` (or `Nat` for the attempt counter), and `Math.round` of an
integer quotient is modelled exactly by `jsRound`.
-/

set_option maxRecDepth 4000

namespace CommitPulse

/-- `const DAY_MS = 24 * 60 * 60 * 1000` from the streak module. -/
def DAY_MS : Int := 24 * 60 * 60 * 1000

/-- Insert a value into a descending-sorted list, keeping it descending.
Together with `sortDesc` this models `Array.from(new Set(...)).sort((a, b) => b - a)`. -/
def insertDesc (x : Int) : List Int → List Int
  | [] => [x]
  | y :: ys => if x ≥ y then x :: y :: ys else y :: insertDesc x ys

/-- Descending insertion sort, modelling `.sort((a, b) => b - a)`. -/
def sortDesc (l : List Int) : List Int :=
  l.foldr insertDesc []

theorem insertDesc_perm (x : Int) (l : List Int) : (insertDesc x l).Perm (x :: l) := by
  induction l with
  | nil => simp [insertDesc]
  | cons y ys ih =>
    by_cases h : x ≥ y
    · simp [insertDesc, h]
    · simp only [insertDesc, if_neg h]
      exact (ih.cons y).trans (List.Perm.swap x y ys)

theorem sortDesc_perm (l : List Int) : (sortDesc l).Perm l := by
  induction l with
  | nil => simp [sortDesc]
  | cons x xs ih =>
    simp only [sortDesc, List.foldr_cons]
    exact (insertDesc_perm x (sortDesc xs)).trans (ih.cons x)

theorem mem_sortDesc {x : Int} {l : List Int} : x ∈ sortDesc l ↔ x ∈ l :=
  (sortDesc_perm l).mem_iff

/-- The deduplicated, descending-sorted list of day stamps built at the top of
`computeCurrentStreakFromDateKeys`. -/
def uniqueStampsOf (dateKeys : List Int) : List Int :=
  sortDesc dateKeys.dedup

theorem mem_uniqueStampsOf {x : Int} {l : List Int} : x ∈ uniqueStampsOf l ↔ x ∈ l := by
  simp [uniqueStampsOf, mem_sortDesc, List.mem_dedup]

theorem uniqueStampsOf_eq_nil {l : List Int} : uniqueStampsOf l = [] ↔ l = [] := by
  constructor
  · intro h
    cases l with
    | nil => rfl
    | cons x xs =>
      exfalso
      have : x ∈ uniqueStampsOf (x :: xs) := mem_uniqueStampsOf.mpr (List.mem_cons_self x xs)
      simp [h] at this
  · intro h; simp [h, uniqueStampsOf, sortDesc, List.dedup_nil]

/-- The backward-walking loop of `computeCurrentStreakFromDateKeys`:
`while (stamps.has(cursorStamp)) { streakDays += 1; cursorStamp -= DAY_MS; }`.
The `fuel` argument is only a termination device; whenever `fuel` exceeds the
number of distinct stamps, the loop stops at the first missing day exactly as
the source loop does (`runLength_lt_fuel`). -/
def runLength (stamps : List Int) : Nat → Int → Nat
  | 0, _ => 0
  | fuel + 1, cursor =>
    if cursor ∈ stamps then runLength stamps fuel (cursor - DAY_MS) + 1 else 0

theorem runLength_pos {stamps : List Int} {fuel : Nat} {cursor : Int}
    (hmem : cursor ∈ stamps) (hfuel : 0 < fuel) :
    1 ≤ runLength stamps fuel cursor := by
  cases fuel with
  | zero => omega
  | succ n => simp [runLength, hmem]

theorem runLength_mem {stamps : List Int} {fuel : Nat} {cursor : Int} :
    ∀ i : Nat, i < runLength stamps fuel cursor → cursor - i * DAY_MS ∈ stamps := by
  induction fuel generalizing cursor with
  | zero => intro i hi; simp [runLength] at hi
  | succ n ih =>
    intro i hi
    by_cases hmem : cursor ∈ stamps
    · simp only [runLength, if_pos hmem] at hi
      cases i with
      | zero => simpa using hmem
      | succ j =>
        have hj : j < runLength stamps n (cursor - DAY_MS) := by omega
        have := ih j hj
        have harith : cursor - DAY_MS - (j : Int) * DAY_MS = cursor - (j + 1 : Nat) * DAY_MS := by
          push_cast; ring
        rwa [harith] at this
    · simp [runLength, hmem] at hi

theorem runLength_gap {stamps : List Int} {fuel : Nat} {cursor : Int}
    (h : runLength stamps fuel cursor < fuel) :
    cursor - (runLength stamps fuel cursor : Int) * DAY_MS ∉ stamps := by
  induction fuel generalizing cursor with
  | zero => omega
  | succ n ih =>
    by_cases hmem : cursor ∈ stamps
    · simp only [runLength, if_pos hmem] at h ⊢
      have h' : runLength stamps n (cursor - DAY_MS) < n := by omega
      have := ih h'
      have harith : cursor - DAY_MS - (runLength stamps n (cursor - DAY_MS) : Int) * DAY_MS
          = cursor - ((runLength stamps n (cursor - DAY_MS) : Int) + 1) * DAY_MS := by ring
      rw [harith] at this
      simpa using this
    · simp [runLength, hmem]

theorem runLength_le_length (stamps : List Int) (fuel : Nat) (cursor : Int) :
    runLength stamps fuel cursor ≤ stamps.length := by
  set n := runLength stamps fuel cursor with hn
  have hmem : ∀ i : Nat, i < n → cursor - i * DAY_MS ∈ stamps := fun i hi =>
    runLength_mem i (hn ▸ hi)
  have hcard : (Finset.univ : Finset (Fin n)).card ≤ stamps.toFinset.card := by
    apply Finset.card_le_card_of_injOn (fun i : Fin n => cursor - (i : Nat) * DAY_MS)
    · intro i _
      exact List.mem_toFinset.mpr (hmem i i.2)
    · intro i _ j _ hij
      have hD : (DAY_MS : Int) ≠ 0 := by decide
      have h2 : ((i : Nat) : Int) * DAY_MS = ((j : Nat) : Int) * DAY_MS := by
        have := hij
        simp only at this
        linarith
      have h3 : ((i : Nat) : Int) = ((j : Nat) : Int) := mul_right_cancel₀ hD h2
      have h4 : (i : Nat) = (j : Nat) := by exact_mod_cast h3
      exact Fin.ext h4
  have hlen : stamps.toFinset.card ≤ stamps.length := stamps.toFinset_card_le
  simpa using hcard.trans hlen

theorem runLength_lt_fuel (stamps : List Int) (cursor : Int) :
    runLength stamps (stamps.length + 1) cursor < stamps.length + 1 := by
  have := runLength_le_length stamps (stamps.length + 1) cursor
  omega

/-- Output record of the streak calculator (`CurrentStreakComputation`).
Date-key-valued fields carry the day stamp of the key the source would return
(`dayStampToDateKey` is injective on day stamps). -/
structure CurrentStreakComputation where
  anchorDateKey : Int
  streakDays : Nat
  streakStartDateKey : Option Int
  firstGapDateKey : Option Int
  newestDateKey : Option Int
  oldestDateKey : Option Int
deriving DecidableEq, Repr

/-- The positive-streak tail of `computeCurrentStreakFromDateKeys`: run the
backward walk from `startStamp` and assemble the result record. -/
def streakResult (uniqueStamps : List Int) (anchorDateKey startStamp : Int)
    (newest oldest : Option Int) : CurrentStreakComputation :=
  let streakDays := runLength uniqueStamps (uniqueStamps.length + 1) startStamp
  { anchorDateKey := anchorDateKey
    streakDays := streakDays
    streakStartDateKey := some (startStamp - ((streakDays : Int) - 1) * DAY_MS)
    firstGapDateKey := some (startStamp - (streakDays : Int) * DAY_MS)
    newestDateKey := newest
    oldestDateKey := oldest }

/-- `computeCurrentStreakFromDateKeys` from the streak module, over parsed day
stamps.  Deduplicates and sorts the stamps descending, picks the qualifying
start day (the anchor day if present, else the day before the anchor), then
walks backward counting consecutive present days.  Both zero-streak exits
return `firstGapDateKey := anchorDateKey` exactly as the source does. -/
def computeCurrentStreakFromDateKeys (dateKeys : List Int) (anchorDateKey : Int) :
    CurrentStreakComputation :=
  let uniqueStamps := uniqueStampsOf dateKeys
  let newest := uniqueStamps.head?
  let oldest := uniqueStamps.getLast?
  if uniqueStamps.isEmpty then
    { anchorDateKey := anchorDateKey, streakDays := 0, streakStartDateKey := none
      firstGapDateKey := some anchorDateKey, newestDateKey := newest, oldestDateKey := oldest }
  else if anchorDateKey ∈ uniqueStamps then
    streakResult uniqueStamps anchorDateKey anchorDateKey newest oldest
  else if anchorDateKey - DAY_MS ∈ uniqueStamps then
    streakResult uniqueStamps anchorDateKey (anchorDateKey - DAY_MS) newest oldest
  else
    { anchorDateKey := anchorDateKey, streakDays := 0, streakStartDateKey := none
      firstGapDateKey := some anchorDateKey, newestDateKey := newest, oldestDateKey := oldest }

theorem compute_of_anchor_mem {dateKeys : List Int} {anchor : Int}
    (h : anchor ∈ dateKeys) :
    computeCurrentStreakFromDateKeys dateKeys anchor =
      streakResult (uniqueStampsOf dateKeys) anchor anchor
        (uniqueStampsOf dateKeys).head? (uniqueStampsOf dateKeys).getLast? := by
  have hmem : anchor ∈ uniqueStampsOf dateKeys := mem_uniqueStampsOf.mpr h
  have hne : (uniqueStampsOf dateKeys).isEmpty = false := by
    cases hu : uniqueStampsOf dateKeys
    · exact absurd (hu ▸ hmem) (by simp)
    · simp
  simp [computeCurrentStreakFromDateKeys, hne, hmem]

theorem compute_of_prev_mem {dateKeys : List Int} {anchor : Int}
    (h1 : anchor ∉ dateKeys) (h2 : anchor - DAY_MS ∈ dateKeys) :
    computeCurrentStreakFromDateKeys dateKeys anchor =
      streakResult (uniqueStampsOf dateKeys) anchor (anchor - DAY_MS)
        (uniqueStampsOf dateKeys).head? (uniqueStampsOf dateKeys).getLast? := by
  have hmem : anchor - DAY_MS ∈ uniqueStampsOf dateKeys := mem_uniqueStampsOf.mpr h2
  have hm1 : anchor ∉ uniqueStampsOf dateKeys := fun hc => h1 (mem_uniqueStampsOf.mp hc)
  have hne : (uniqueStampsOf dateKeys).isEmpty = false := by
    cases hu : uniqueStampsOf dateKeys
    · exact absurd (hu ▸ hmem) (by simp)
    · simp
  simp [computeCurrentStreakFromDateKeys, hne, hmem, hm1]

theorem compute_of_no_start {dateKeys : List Int} {anchor : Int}
    (h1 : anchor ∉ dateKeys) (h2 : anchor - DAY_MS ∉ dateKeys) :
    computeCurrentStreakFromDateKeys dateKeys anchor =
      { anchorDateKey := anchor, streakDays := 0, streakStartDateKey := none
        firstGapDateKey := some anchor
        newestDateKey := (uniqueStampsOf dateKeys).head?
        oldestDateKey := (uniqueStampsOf dateKeys).getLast? } := by
  have hm1 : anchor ∉ uniqueStampsOf dateKeys := fun hc => h1 (mem_uniqueStampsOf.mp hc)
  have hm2 : anchor - DAY_MS ∉ uniqueStampsOf dateKeys := fun hc => h2 (mem_uniqueStampsOf.mp hc)
  by_cases he : (uniqueStampsOf dateKeys).isEmpty
  · have : uniqueStampsOf dateKeys = [] := List.isEmpty_iff.mp he
    simp [computeCurrentStreakFromDateKeys, he, this]
  · simp [computeCurrentStreakFromDateKeys, he, hm1, hm2]

theorem streakResult_streakDays (uniq : List Int) (anchor start : Int)
    (newest oldest : Option Int) :
    (streakResult uniq anchor start newest oldest).streakDays =
      runLength uniq (uniq.length + 1) start := rfl

theorem streakResult_spec (uniq : List Int) (anchor start : Int)
    (hstart : start ∈ uniq) (newest oldest : Option Int) :
    1 ≤ (streakResult uniq anchor start newest oldest).streakDays ∧
    (∀ i : Nat, i < (streakResult uniq anchor start newest oldest).streakDays →
      start - i * DAY_MS ∈ uniq) ∧
    start - ((streakResult uniq anchor start newest oldest).streakDays : Int) * DAY_MS ∉ uniq := by
  simp only [streakResult_streakDays]
  refine ⟨runLength_pos hstart (by omega), fun i hi => runLength_mem i hi, ?_⟩
  exact runLength_gap (runLength_lt_fuel uniq start)

/-- `touchesLookbackBoundary` from the streak module: a `none` streak start
(the null case, including unparseable keys) yields `false`; otherwise compare
day stamps. -/
def touchesLookbackBoundary (streakStartDateKey : Option Int)
    (lookbackStartDateKey : Int) : Bool :=
  match streakStartDateKey with
  | none => false
  | some s => decide (s ≤ lookbackStartDateKey)

/-- `isQuietHour(hour, start, end)` from the reminder module: null bounds or a
degenerate `start === end` window never suppress; `start < end` suppresses the
half-open range `[start, end)`; `start > end` is the wraparound window. -/
def isQuietHour (hour : Int) (start : Option Int) (stop : Option Int) : Bool :=
  match start, stop with
  | some s, some e =>
    if s = e then false
    else if s < e then decide (s ≤ hour) && decide (hour < e)
    else decide (hour ≥ s) || decide (hour < e)
  | _, _ => false

/-- A family of `n` consecutive event days `start, start − 1d, …, start − (n−1)d`,
used to state the spec's concrete streak scenarios. -/
def consecutiveDays (start : Int) : Nat → List Int
  | 0 => []
  | n + 1 => start :: consecutiveDays (start - DAY_MS) n

theorem mem_consecutiveDays {start x : Int} {n : Nat} :
    x ∈ consecutiveDays start n ↔ ∃ i : Nat, i < n ∧ start - (i : Int) * DAY_MS = x := by
  induction n generalizing start with
  | zero => simp [consecutiveDays]
  | succ m ih =>
    simp only [consecutiveDays, List.mem_cons, ih]
    constructor
    · rintro (rfl | ⟨i, hi, heq⟩)
      · exact ⟨0, by omega, by simp⟩
      · refine ⟨i + 1, by omega, ?_⟩
        push_cast
        linarith
    · rintro ⟨i, hi, heq⟩
      cases i with
      | zero => left; simpa using heq.symm
      | succ j =>
        right
        refine ⟨j, by omega, ?_⟩
        push_cast at heq ⊢
        linarith

theorem walk_eq_of_consecutive {start : Int} {n s : Nat}
    (hmem : ∀ i : Nat, i < s → start - (i : Int) * DAY_MS ∈ consecutiveDays start n)
    (hgap : start - (s : Int) * DAY_MS ∉ consecutiveDays start n) :
    s = n := by
  have hsn : ¬ s < n := fun hlt => hgap (mem_consecutiveDays.mpr ⟨s, hlt, rfl⟩)
  by_contra hne
  have hlt : n < s := by omega
  obtain ⟨i, hi, heq⟩ := mem_consecutiveDays.mp (hmem n hlt)
  have h2 : (i : Int) * DAY_MS = (n : Int) * DAY_MS := by linarith
  have h3 : (i : Int) = (n : Int) :=
    mul_right_cancel₀ (by decide : (DAY_MS : Int) ≠ 0) h2
  omega

theorem streak_consecutive_anchor (n : Nat) (hn : 0 < n) (anchor : Int) :
    (computeCurrentStreakFromDateKeys (consecutiveDays anchor n) anchor).streakDays = n := by
  have hanch : anchor ∈ consecutiveDays anchor n :=
    mem_consecutiveDays.mpr ⟨0, hn, by simp⟩
  rw [compute_of_anchor_mem hanch]
  obtain ⟨hpos, hmem, hgap⟩ := streakResult_spec _ anchor anchor
    (mem_uniqueStampsOf.mpr hanch) (uniqueStampsOf (consecutiveDays anchor n)).head?
    (uniqueStampsOf (consecutiveDays anchor n)).getLast?
  exact walk_eq_of_consecutive
    (fun i hi => mem_uniqueStampsOf.mp (hmem i hi))
    (fun hc => hgap (mem_uniqueStampsOf.mpr hc))

theorem streak_consecutive_prev (n : Nat) (hn : 0 < n) (anchor : Int) :
    (computeCurrentStreakFromDateKeys (consecutiveDays (anchor - DAY_MS) n) anchor).streakDays
      = n := by
  have hD : (0 : Int) < DAY_MS := by decide
  have hanch : anchor ∉ consecutiveDays (anchor - DAY_MS) n := by
    intro hc
    obtain ⟨i, hi, heq⟩ := mem_consecutiveDays.mp hc
    have hge : (0 : Int) ≤ (i : Int) * DAY_MS :=
      mul_nonneg (Int.natCast_nonneg i) hD.le
    linarith
  have hprev : anchor - DAY_MS ∈ consecutiveDays (anchor - DAY_MS) n :=
    mem_consecutiveDays.mpr ⟨0, hn, by simp⟩
  rw [compute_of_prev_mem hanch hprev]
  obtain ⟨hpos, hmem, hgap⟩ := streakResult_spec _ anchor (anchor - DAY_MS)
    (mem_uniqueStampsOf.mpr hprev)
    (uniqueStampsOf (consecutiveDays (anchor - DAY_MS) n)).head?
    (uniqueStampsOf (consecutiveDays (anchor - DAY_MS) n)).getLast?
  exact walk_eq_of_consecutive
    (fun i hi => mem_uniqueStampsOf.mp (hmem i hi))
    (fun hc => hgap (mem_uniqueStampsOf.mpr hc))

theorem streak_two_day_gap (anchor : Int) :
    (computeCurrentStreakFromDateKeys
      [anchor - 5 * DAY_MS, anchor - 4 * DAY_MS, anchor - 3 * DAY_MS] anchor).streakDays = 0 := by
  have h1 : anchor ∉ [anchor - 5 * DAY_MS, anchor - 4 * DAY_MS, anchor - 3 * DAY_MS] := by
    simp only [List.mem_cons, List.not_mem_nil, or_false, DAY_MS]
    omega
  have h2 : anchor - DAY_MS ∉ [anchor - 5 * DAY_MS, anchor - 4 * DAY_MS, anchor - 3 * DAY_MS] := by
    simp only [List.mem_cons, List.not_mem_nil, or_false, DAY_MS]
    omega
  rw [compute_of_no_start h1 h2]

/-- C1: `computeCurrentStreakFromDateKeys` picks the streak's start day as the
anchor day if it has an event, else the day immediately before the anchor if
that day has an event, and otherwise returns streak 0; from the qualifying
start day it counts consecutive event days walking backward until the first
day with no event.  Consequently events on every day from anchor−33 to anchor
give streak 34, events on every day from anchor−12 to anchor−1 with none on
the anchor give streak 12, and events only on days anchor−5, anchor−4,
anchor−3 give streak 0. -/
theorem c1_streak_start_and_backward_walk (dateKeys : List Int) (anchor : Int) :
    (anchor ∉ dateKeys → anchor - DAY_MS ∉ dateKeys →
      (computeCurrentStreakFromDateKeys dateKeys anchor).streakDays = 0) ∧
    (anchor ∈ dateKeys →
      1 ≤ (computeCurrentStreakFromDateKeys dateKeys anchor).streakDays ∧
      (∀ i : Nat, i < (computeCurrentStreakFromDateKeys dateKeys anchor).streakDays →
        anchor - (i : Int) * DAY_MS ∈ dateKeys) ∧
      anchor - ((computeCurrentStreakFromDateKeys dateKeys anchor).streakDays : Int) * DAY_MS
        ∉ dateKeys) ∧
    (anchor ∉ dateKeys → anchor - DAY_MS ∈ dateKeys →
      1 ≤ (computeCurrentStreakFromDateKeys dateKeys anchor).streakDays ∧
      (∀ i : Nat, i < (computeCurrentStreakFromDateKeys dateKeys anchor).streakDays →
        anchor - DAY_MS - (i : Int) * DAY_MS ∈ dateKeys) ∧
      anchor - DAY_MS -
        ((computeCurrentStreakFromDateKeys dateKeys anchor).streakDays : Int) * DAY_MS
        ∉ dateKeys) ∧
    (computeCurrentStreakFromDateKeys (consecutiveDays anchor 34) anchor).streakDays = 34 ∧
    (computeCurrentStreakFromDateKeys (consecutiveDays (anchor - DAY_MS) 12) anchor).streakDays
      = 12 ∧
    (computeCurrentStreakFromDateKeys
      [anchor - 5 * DAY_MS, anchor - 4 * DAY_MS, anchor - 3 * DAY_MS] anchor).streakDays = 0 := by
  refine ⟨?_, ?_, ?_, streak_consecutive_anchor 34 (by omega) anchor,
    streak_consecutive_prev 12 (by omega) anchor, streak_two_day_gap anchor⟩
  · intro h1 h2
    rw [compute_of_no_start h1 h2]
  · intro h
    rw [compute_of_anchor_mem h]
    obtain ⟨hpos, hmem, hgap⟩ := streakResult_spec _ anchor anchor
      (mem_uniqueStampsOf.mpr h) (uniqueStampsOf dateKeys).head? (uniqueStampsOf dateKeys).getLast?
    exact ⟨hpos, fun i hi => mem_uniqueStampsOf.mp (hmem i hi),
      fun hc => hgap (mem_uniqueStampsOf.mpr hc)⟩
  · intro h1 h2
    rw [compute_of_prev_mem h1 h2]
    obtain ⟨hpos, hmem, hgap⟩ := streakResult_spec _ anchor (anchor - DAY_MS)
      (mem_uniqueStampsOf.mpr h2) (uniqueStampsOf dateKeys).head? (uniqueStampsOf dateKeys).getLast?
    exact ⟨hpos, fun i hi => mem_uniqueStampsOf.mp (hmem i hi),
      fun hc => hgap (mem_uniqueStampsOf.mpr hc)⟩

theorem c1_streak_start_and_backward_walk_witness :
    1 ≤ (computeCurrentStreakFromDateKeys [0] 0).streakDays ∧
    (computeCurrentStreakFromDateKeys [-5 * DAY_MS, -4 * DAY_MS, -3 * DAY_MS] 0).streakDays
      = 0 := by
  refine ⟨((c1_streak_start_and_backward_walk [0] 0).2.1 (by decide)).1, ?_⟩
  have h := (c1_streak_start_and_backward_walk [-5 * DAY_MS, -4 * DAY_MS, -3 * DAY_MS] 0).1
  simpa using h (by decide) (by decide)

theorem streakStart_consecutive_anchor (n : Nat) (hn : 0 < n) (anchor : Int) :
    (computeCurrentStreakFromDateKeys (consecutiveDays anchor n) anchor).streakStartDateKey
      = some (anchor - ((n : Int) - 1) * DAY_MS) := by
  have hanch : anchor ∈ consecutiveDays anchor n := mem_consecutiveDays.mpr ⟨0, hn, by simp⟩
  have hdays := streak_consecutive_anchor n hn anchor
  rw [compute_of_anchor_mem hanch] at hdays ⊢
  rw [streakResult_streakDays] at hdays
  simp only [streakResult, hdays]

/-- C4: `touchesLookbackBoundary` returns true on a non-null streak start key
exactly when the streak's start day is on or before the lookback window's
start day; in particular a streak of 140 consecutive days ending at the anchor
with a lookback window starting 90 days before the anchor yields true. -/
theorem c4_touches_lookback_boundary (s lookback anchor : Int) :
    (touchesLookbackBoundary (some s) lookback = true ↔ s ≤ lookback) ∧
    touchesLookbackBoundary
      (computeCurrentStreakFromDateKeys (consecutiveDays anchor 140) anchor).streakStartDateKey
      (anchor - 90 * DAY_MS) = true := by
  constructor
  · simp [touchesLookbackBoundary]
  · rw [streakStart_consecutive_anchor 140 (by omega) anchor]
    simp only [touchesLookbackBoundary, decide_eq_true_eq, DAY_MS]
    omega

/-- C7 is false as stated: when the streak is 0 the source returns
`firstGapDateKey = anchorDateKey`, not null.  Concretely, on empty input with
anchor day 0 the streak is 0 yet `firstGapDateKey` is the anchor key. -/
theorem c7_counterexample :
    (computeCurrentStreakFromDateKeys [] 0).streakDays = 0 ∧
    (computeCurrentStreakFromDateKeys [] 0).firstGapDateKey = some 0 ∧
    (computeCurrentStreakFromDateKeys [] 0).firstGapDateKey ≠ none := by decide

theorem gap_field_spec {dateKeys : List Int} {anchor start : Int}
    (hstart : start ∈ dateKeys)
    (hres : computeCurrentStreakFromDateKeys dateKeys anchor =
      streakResult (uniqueStampsOf dateKeys) anchor start
        (uniqueStampsOf dateKeys).head? (uniqueStampsOf dateKeys).getLast?) :
    ∃ g : Int, (computeCurrentStreakFromDateKeys dateKeys anchor).firstGapDateKey = some g ∧
      g ∉ dateKeys ∧ g + DAY_MS ∈ dateKeys ∧
      (computeCurrentStreakFromDateKeys dateKeys anchor).streakStartDateKey
        = some (g + DAY_MS) ∧
      g = start - ((computeCurrentStreakFromDateKeys dateKeys anchor).streakDays : Int)
            * DAY_MS := by
  obtain ⟨hpos, hmem, hgap⟩ := streakResult_spec (uniqueStampsOf dateKeys) anchor start
    (mem_uniqueStampsOf.mpr hstart) (uniqueStampsOf dateKeys).head?
    (uniqueStampsOf dateKeys).getLast?
  rw [hres]
  set s := (streakResult (uniqueStampsOf dateKeys) anchor start
    (uniqueStampsOf dateKeys).head? (uniqueStampsOf dateKeys).getLast?).streakDays with hs
  refine ⟨start - (s : Int) * DAY_MS, rfl, fun hc => hgap (mem_uniqueStampsOf.mpr hc),
    ?_, ?_, rfl⟩
  · have h1 : s - 1 < s := by omega
    have hm := mem_uniqueStampsOf.mp (hmem (s - 1) h1)
    have hcast : ((s - 1 : Nat) : Int) = (s : Int) - 1 := by omega
    have harith : start - (s : Int) * DAY_MS + DAY_MS
        = start - ((s - 1 : Nat) : Int) * DAY_MS := by
      rw [hcast]; ring
    rwa [harith]
  · show some (start - ((s : Int) - 1) * DAY_MS) = some (start - (s : Int) * DAY_MS + DAY_MS)
    congr 1
    ring

/-- C7 (amended): when the computed streak is 0, `streakStartDateKey` is null
and `firstGapDateKey` is the anchor date key (not null); on empty input
`newestDateKey` and `oldestDateKey` are null; when the streak is positive,
`firstGapDateKey` is exactly the first day with no event that broke the
chain: the day immediately before `streakStartDateKey`, lying `streakDays`
days before the qualifying start day (the anchor if it has an event, else the
day before the anchor), itself event-free while the day after it has an
event. -/
theorem c7_output_fields (dateKeys : List Int) (anchor : Int) :
    ((computeCurrentStreakFromDateKeys dateKeys anchor).streakDays = 0 →
      (computeCurrentStreakFromDateKeys dateKeys anchor).streakStartDateKey = none ∧
      (computeCurrentStreakFromDateKeys dateKeys anchor).firstGapDateKey = some anchor) ∧
    (dateKeys = [] →
      (computeCurrentStreakFromDateKeys dateKeys anchor).newestDateKey = none ∧
      (computeCurrentStreakFromDateKeys dateKeys anchor).oldestDateKey = none) ∧
    (0 < (computeCurrentStreakFromDateKeys dateKeys anchor).streakDays →
      ∃ g : Int, (computeCurrentStreakFromDateKeys dateKeys anchor).firstGapDateKey = some g ∧
        g ∉ dateKeys ∧ g + DAY_MS ∈ dateKeys ∧
        (computeCurrentStreakFromDateKeys dateKeys anchor).streakStartDateKey
          = some (g + DAY_MS) ∧
        (anchor ∈ dateKeys →
          g = anchor -
            ((computeCurrentStreakFromDateKeys dateKeys anchor).streakDays : Int) * DAY_MS) ∧
        (anchor ∉ dateKeys →
          g = anchor - DAY_MS -
            ((computeCurrentStreakFromDateKeys dateKeys anchor).streakDays : Int) * DAY_MS)) := by
  refine ⟨?_, ?_, ?_⟩
  · intro h0
    by_cases h1 : anchor ∈ dateKeys
    · exfalso
      have := (streakResult_spec (uniqueStampsOf dateKeys) anchor anchor
        (mem_uniqueStampsOf.mpr h1) (uniqueStampsOf dateKeys).head?
        (uniqueStampsOf dateKeys).getLast?).1
      rw [compute_of_anchor_mem h1] at h0
      omega
    · by_cases h2 : anchor - DAY_MS ∈ dateKeys
      · exfalso
        have := (streakResult_spec (uniqueStampsOf dateKeys) anchor (anchor - DAY_MS)
          (mem_uniqueStampsOf.mpr h2) (uniqueStampsOf dateKeys).head?
          (uniqueStampsOf dateKeys).getLast?).1
        rw [compute_of_prev_mem h1 h2] at h0
        omega
      · rw [compute_of_no_start h1 h2]
        exact ⟨rfl, rfl⟩
  · rintro rfl
    have hnil : uniqueStampsOf ([] : List Int) = [] := uniqueStampsOf_eq_nil.mpr rfl
    rw [compute_of_no_start (by simp) (by simp)]
    simp [hnil]
  · intro hpos
    by_cases h1 : anchor ∈ dateKeys
    · obtain ⟨g, hgEq, hgNot, hgNext, hgStart, hgVal⟩ :=
        gap_field_spec h1 (compute_of_anchor_mem h1)
      exact ⟨g, hgEq, hgNot, hgNext, hgStart, fun _ => hgVal, fun hc => absurd h1 hc⟩
    · by_cases h2 : anchor - DAY_MS ∈ dateKeys
      · obtain ⟨g, hgEq, hgNot, hgNext, hgStart, hgVal⟩ :=
          gap_field_spec h2 (compute_of_prev_mem h1 h2)
        exact ⟨g, hgEq, hgNot, hgNext, hgStart, fun hc => absurd hc h1, fun _ => hgVal⟩
      · rw [compute_of_no_start h1 h2] at hpos
        simp at hpos

theorem c7_output_fields_witness :
    (computeCurrentStreakFromDateKeys [] 7).streakStartDateKey = none ∧
    (computeCurrentStreakFromDateKeys [] 7).newestDateKey = none :=
  ⟨((c7_output_fields [] 7).1 (by decide)).1, ((c7_output_fields [] 7).2.1 rfl).1⟩

/-- C8: with non-null bounds the quiet-hour check suppresses exactly the hours
inside the window: the half-open range `[start, end)` when `start < end`, and
the wraparound set `hour ≥ start ∨ hour < end` when `start > end`; with
start = 22 and end = 7 it suppresses hour 23 and hour 3 but not hour 10. -/
theorem c8_quiet_hours_window (h s e : Int) :
    (s < e → (isQuietHour h (some s) (some e) = true ↔ s ≤ h ∧ h < e)) ∧
    (e < s → (isQuietHour h (some s) (some e) = true ↔ h ≥ s ∨ h < e)) ∧
    isQuietHour 23 (some 22) (some 7) = true ∧
    isQuietHour 3 (some 22) (some 7) = true ∧
    isQuietHour 10 (some 22) (some 7) = false := by
  refine ⟨?_, ?_, by decide, by decide, by decide⟩
  · intro hlt
    have hne : s ≠ e := ne_of_lt hlt
    simp [isQuietHour, hne, hlt]
  · intro hgt
    have hne : s ≠ e := ne_of_gt hgt
    have hnlt : ¬ s < e := by omega
    simp [isQuietHour, hne, hnlt]

theorem c8_quiet_hours_window_witness :
    (2 : Int) < 7 ∧ (isQuietHour 5 (some 2) (some 7) = true ↔ (2 : Int) ≤ 5 ∧ (5 : Int) < 7) :=
  ⟨by decide, (c8_quiet_hours_window 5 2 7).1 (by decide)⟩

/-- C10: a quiet-hours window with equal bounds, or with either bound null,
never suppresses: the check returns false for every hour, so the degenerate
`start = end` window is treated as no quiet hours, not a 24-hour one. -/
theorem c10_degenerate_or_null_window (h s s' : Int) (e : Option Int) :
    isQuietHour h (some s) (some s) = false ∧
    isQuietHour h none e = false ∧
    isQuietHour h (some s') none = false := by
  refine ⟨by simp [isQuietHour], ?_, by simp [isQuietHour]⟩
  cases e <;> simp [isQuietHour]

/-! ## Sync-job queue (`github.ts`) -/

/-- `const MAX_JOB_ATTEMPTS = 6` from `github.ts`. -/
def MAX_JOB_ATTEMPTS : Nat := 6

/-- The status union of `githubSyncJobs` rows. -/
inductive JobStatus
  | pending
  | processing
  | completed
  | failed
deriving DecidableEq, Repr, BEq

/-- The reason union of `githubSyncJobs` rows. -/
inductive JobReason
  | initial_backfill
  | push
  | installation_repositories
  | reconcile
deriving DecidableEq, Repr, BEq

/-- A `githubSyncJobs` row per the schema. -/
structure SyncJob where
  userId : String
  installationId : Int
  repoFullName : Option String
  lookbackDays : Option Int
  reason : JobReason
  deliveryId : Option String
  status : JobStatus
  attempt : Nat
  runAfter : Int
  createdAt : Int
  updatedAt : Int
  errorMessage : Option String
deriving DecidableEq, Repr, BEq

/-- `Math.min(5 * 60 * 1000, 2 ** attempt * 5000)` from `failSyncJob`. -/
def backoffMs (attempt : Nat) : Nat :=
  min (5 * 60 * 1000) (2 ^ attempt * 5000)

/-- `failSyncJob` from `github.ts`: at or above the attempt ceiling the job is
patched to terminal `failed`; below it the job is requeued `pending` with
exponential backoff and the error message recorded. -/
def failSyncJob (job : SyncJob) (attempt : Nat) (errorMessage : String) (now : Int) : SyncJob :=
  if attempt ≥ MAX_JOB_ATTEMPTS then
    { job with
      status := JobStatus.failed
      attempt := attempt
      errorMessage := some errorMessage
      updatedAt := now }
  else
    { job with
      status := JobStatus.pending
      attempt := attempt
      errorMessage := some errorMessage
      runAfter := now + (backoffMs attempt : Int)
      updatedAt := now }

/-- C3: `failSyncJob` marks the job terminally failed exactly when the attempt
reaches the ceiling of 6; below the ceiling it requeues the job as pending
with `runAfter = now + min(300000, 5000·2^attempt)` and records the error, and
the backoff delays strictly increase with the attempt number while staying at
or below the 5-minute cap. -/
theorem c3_fail_sync_job_backoff (job : SyncJob) (a : Nat) (e : String) (now : Int) :
    ((failSyncJob job a e now).status = JobStatus.failed ↔ 6 ≤ a) ∧
    (a < 6 →
      (failSyncJob job a e now).status = JobStatus.pending ∧
      (failSyncJob job a e now).runAfter = now + (min 300000 (5000 * 2 ^ a) : Nat) ∧
      (failSyncJob job a e now).errorMessage = some e) ∧
    (∀ b c : Nat, b < c → c < 6 → backoffMs b < backoffMs c) ∧
    (∀ b : Nat, backoffMs b ≤ 300000) := by
  have hsmall : ∀ b : Nat, b < 6 → backoffMs b = 2 ^ b * 5000 := by
    intro b hb6
    have hle : 2 ^ b * 5000 ≤ 5 * 60 * 1000 := by
      have : 2 ^ b ≤ 2 ^ 5 := Nat.pow_le_pow_right (by omega) (by omega)
      omega
    unfold backoffMs
    omega
  refine ⟨?_, ?_, ?_, ?_⟩
  · by_cases h6 : a ≥ MAX_JOB_ATTEMPTS
    · simp only [failSyncJob, if_pos h6]
      simp only [MAX_JOB_ATTEMPTS] at h6
      simpa using h6
    · simp only [failSyncJob, if_neg h6]
      simp only [MAX_JOB_ATTEMPTS, ge_iff_le, not_le] at h6
      constructor
      · intro hc
        simp at hc
      · intro hc
        omega
  · intro h
    have hlt : ¬ a ≥ MAX_JOB_ATTEMPTS := by
      simp only [MAX_JOB_ATTEMPTS, ge_iff_le, not_le]
      omega
    refine ⟨?_, ?_, ?_⟩
    · simp [failSyncJob, hlt]
    · have hb : backoffMs a = min 300000 (5000 * 2 ^ a) := by
        unfold backoffMs
        rw [Nat.mul_comm (2 ^ a) 5000]
      simp [failSyncJob, hlt, hb]
    · simp [failSyncJob, hlt]
  · intro b c hbc hc6
    rw [hsmall b (by omega), hsmall c hc6]
    have : 2 ^ b < 2 ^ c := Nat.pow_lt_pow_right (by omega) hbc
    omega
  · intro b
    have := Nat.min_le_left (5 * 60 * 1000) (2 ^ b * 5000)
    unfold backoffMs
    omega

theorem c3_fail_sync_job_backoff_witness :
    (2 : Nat) < 6 ∧
    (failSyncJob
      { userId := "u", installationId := 1, repoFullName := none, lookbackDays := none
        reason := JobReason.push, deliveryId := none, status := JobStatus.processing
        attempt := 2, runAfter := 0, createdAt := 0, updatedAt := 0, errorMessage := none }
      2 "boom" 1000).runAfter = 1000 + (min 300000 (5000 * 2 ^ 2) : Nat) := by
  refine ⟨by decide, ?_⟩
  exact ((c3_fail_sync_job_backoff
    { userId := "u", installationId := 1, repoFullName := none, lookbackDays := none
      reason := JobReason.push, deliveryId := none, status := JobStatus.processing
      attempt := 2, runAfter := 0, createdAt := 0, updatedAt := 0, errorMessage := none }
    2 "boom" 1000).2.1 (by decide)).2.1

/-! ## Commit ingestion and daily aggregates (`saveCommit` in `github.ts`) -/

/-- `Math.round(num / den)` for an integer numerator and positive integer
denominator: JavaScript rounds halves toward positive infinity, i.e. the
result is `⌊num/den + 1/2⌋`, here written with flooring division. -/
def jsRound (num den : Int) : Int :=
  (2 * num + den).fdiv (2 * den)

/-- `uniquePush` from the shared lib:
`list.includes(value) ? list : [...list, value]`. -/
def uniquePush (list : List String) (value : String) : List String :=
  if value ∈ list then list else list ++ [value]

/-- Patch the first row matching the predicate, modelling a Convex
`db.patch` on the row returned by a `.first()` query. -/
def updateFirst {α : Type} (p : α → Bool) (g : α → α) : List α → List α
  | [] => []
  | x :: xs => if p x then g x :: xs else x :: updateFirst p g xs

theorem mem_updateFirst {α : Type} {p : α → Bool} {g : α → α} {l : List α} {y : α}
    (h : y ∈ updateFirst p g l) : y ∈ l ∨ ∃ x ∈ l, y = g x := by
  induction l with
  | nil => simp [updateFirst] at h
  | cons x xs ih =>
    by_cases hp : p x
    · simp only [updateFirst, if_pos hp, List.mem_cons] at h
      rcases h with h | h
      · exact Or.inr ⟨x, List.mem_cons_self x xs, h⟩
      · exact Or.inl (List.mem_cons_of_mem x h)
    · simp only [updateFirst, if_neg hp, List.mem_cons] at h
      rcases h with h | h
      · exact Or.inl (h ▸ List.mem_cons_self x xs)
      · rcases ih h with h' | ⟨z, hz, hy⟩
        · exact Or.inl (List.mem_cons_of_mem x h')
        · exact Or.inr ⟨z, List.mem_cons_of_mem x hz, hy⟩

/-- Arguments of the `saveCommit` internal mutation. -/
structure CommitArgs where
  userId : String
  repo : String
  repoId : Option Int
  sha : String
  message : String
  url : String
  additions : Int
  deletions : Int
  filesChanged : Int
  committedAt : Int
deriving DecidableEq, Repr

/-- A `commitEvents` row per the schema (`size` is derived on insert). -/
structure CommitEventRow where
  userId : String
  repo : String
  repoId : Option Int
  sha : String
  message : String
  url : String
  additions : Int
  deletions : Int
  filesChanged : Int
  committedAt : Int
  size : Int
deriving DecidableEq, Repr

/-- A `dailyStats` row per the schema. -/
structure DailyStatRow where
  userId : String
  date : String
  commitCount : Int
  locChanged : Int
  avgCommitSize : Int
  reposTouched : List String
  updatedAt : Int
deriving DecidableEq, Repr

/-- A `goals` row per the schema (fields `saveCommit` reads). -/
structure GoalsRow where
  userId : String
  commitsPerDay : Int
  locPerDay : Int
  pushByHour : Int
  timezone : String
  updatedAt : Int
deriving DecidableEq, Repr

/-- The slice of the document store `saveCommit` touches.  Lists are in
insertion order, matching Convex's default index order for the `.first()`
queries involved. -/
structure Db where
  commitEvents : List CommitEventRow
  goals : List GoalsRow
  dailyStats : List DailyStatRow
deriving DecidableEq, Repr

/-- The `commitEvents` row `saveCommit` inserts: the argument fields plus the
derived `size = additions + deletions`. -/
def newCommitEventRow (args : CommitArgs) : CommitEventRow :=
  { userId := args.userId, repo := args.repo, repoId := args.repoId, sha := args.sha
    message := args.message, url := args.url, additions := args.additions
    deletions := args.deletions, filesChanged := args.filesChanged
    committedAt := args.committedAt, size := args.additions + args.deletions }

/-- `saveCommit` from `github.ts`.  The check-and-insert is keyed on
(userId, sha); on a fresh insert the day's DailyStat row is created or
incrementally patched, with the day key resolved through the user's configured
time zone.  `dateKeyFn` stands for `toDateKey` (an `Intl`-based host call),
passed in explicitly; the Boolean result is the mutation's `inserted` flag. -/
def saveCommit (dateKeyFn : Int → String → String) (db : Db) (args : CommitArgs)
    (now : Int) : Db × Bool :=
  if (db.commitEvents.find? fun r => r.userId == args.userId && r.sha == args.sha).isSome then
    (db, false)
  else
    let size := args.additions + args.deletions
    let events := db.commitEvents ++ [newCommitEventRow args]
    let timeZone := ((db.goals.find? fun g => g.userId == args.userId).map
      (fun g => g.timezone)).getD "UTC"
    let dateKey := dateKeyFn args.committedAt timeZone
    match db.dailyStats.find? fun d => d.userId == args.userId && d.date == dateKey with
    | none =>
      ({ db with
         commitEvents := events
         dailyStats := db.dailyStats ++
           [{ userId := args.userId, date := dateKey, commitCount := 1, locChanged := size
              avgCommitSize := size, reposTouched := [args.repo], updatedAt := now }] },
       true)
    | some daily =>
      let nextCommitCount := daily.commitCount + 1
      let nextLoc := daily.locChanged + size
      ({ db with
         commitEvents := events
         dailyStats := updateFirst (fun d => d.userId == args.userId && d.date == dateKey)
           (fun _ =>
             { daily with
               commitCount := nextCommitCount
               locChanged := nextLoc
               avgCommitSize := jsRound nextLoc nextCommitCount
               reposTouched := uniquePush daily.reposTouched args.repo
               updatedAt := now })
           db.dailyStats },
       true)

theorem saveCommit_event_exists (dateKeyFn : Int → String → String) (db : Db)
    (args : CommitArgs) (now : Int) :
    ∃ r ∈ (saveCommit dateKeyFn db args now).1.commitEvents,
      (r.userId == args.userId && r.sha == args.sha) = true := by
  by_cases h : (db.commitEvents.find?
      fun r => r.userId == args.userId && r.sha == args.sha).isSome
  · obtain ⟨r, hr, hp⟩ := List.find?_isSome.mp h
    refine ⟨r, ?_, hp⟩
    simp only [saveCommit, if_pos h]
    exact hr
  · refine ⟨newCommitEventRow args, ?_, by simp [newCommitEventRow]⟩
    cases hf : db.dailyStats.find?
        (fun d => d.userId == args.userId &&
          d.date == dateKeyFn args.committedAt
            (((db.goals.find? fun g => g.userId == args.userId).map
              (fun g => g.timezone)).getD "UTC")) with
    | none =>
      simp only [saveCommit, if_neg h, hf]
      exact List.mem_append_right _ (List.mem_singleton.mpr rfl)
    | some daily =>
      simp only [saveCommit, if_neg h, hf]
      exact List.mem_append_right _ (List.mem_singleton.mpr rfl)

/-- C2: calling `saveCommit` twice with the same (userId, sha) stores the
commit at most once: the second call reports `inserted := false` and leaves
the entire store — in particular the day's DailyStat row — exactly as it was
after the first call. -/
theorem c2_save_commit_idempotent (dateKeyFn : Int → String → String) (db : Db)
    (a1 a2 : CommitArgs) (now1 now2 : Int)
    (hu : a2.userId = a1.userId) (hs : a2.sha = a1.sha) :
    saveCommit dateKeyFn (saveCommit dateKeyFn db a1 now1).1 a2 now2 =
      ((saveCommit dateKeyFn db a1 now1).1, false) := by
  have hex := saveCommit_event_exists dateKeyFn db a1 now1
  have hsome : ((saveCommit dateKeyFn db a1 now1).1.commitEvents.find?
      fun r => r.userId == a2.userId && r.sha == a2.sha).isSome = true := by
    rw [hu, hs]
    exact List.find?_isSome.mpr hex
  generalize hX : (saveCommit dateKeyFn db a1 now1).1 = X at hsome ⊢
  simp [saveCommit, hsome]

theorem c2_save_commit_idempotent_witness :
    saveCommit (fun _ _ => "2024-01-01")
      (saveCommit (fun _ _ => "2024-01-01") ⟨[], [], []⟩
        ⟨"u1", "o/r", none, "abc", "m", "url", 3, 2, 1, 1000⟩ 5).1
      ⟨"u1", "o/r", none, "abc", "m", "url", 3, 2, 1, 1000⟩ 9 =
      ((saveCommit (fun _ _ => "2024-01-01") ⟨[], [], []⟩
        ⟨"u1", "o/r", none, "abc", "m", "url", 3, 2, 1, 1000⟩ 5).1, false) :=
  c2_save_commit_idempotent (fun _ _ => "2024-01-01") ⟨[], [], []⟩
    ⟨"u1", "o/r", none, "abc", "m", "url", 3, 2, 1, 1000⟩
    ⟨"u1", "o/r", none, "abc", "m", "url", 3, 2, 1, 1000⟩ 5 9 rfl rfl

/-- The DailyStat aggregate invariant: whenever the commit count is positive,
the stored average equals `Math.round(locChanged / commitCount)`. -/
def DailyStatInv (d : DailyStatRow) : Prop :=
  0 < d.commitCount → d.avgCommitSize = jsRound d.locChanged d.commitCount

/-- All DailyStat rows of the store satisfy the aggregate invariant. -/
def DbInv (db : Db) : Prop :=
  ∀ d ∈ db.dailyStats, DailyStatInv d

theorem jsRound_one (n : Int) : jsRound n 1 = n := by
  unfold jsRound
  have h2 : (2 : Int) * 1 = 2 := by norm_num
  rw [h2, Int.fdiv_eq_ediv _ (by norm_num)]
  have h : 2 * n + 1 = 1 + n * 2 := by ring
  rw [h, Int.add_mul_ediv_right 1 n (by norm_num : (2 : Int) ≠ 0)]
  norm_num

theorem saveCommit_preserves_inv (dateKeyFn : Int → String → String) (db : Db)
    (args : CommitArgs) (now : Int) (hinv : DbInv db) :
    DbInv (saveCommit dateKeyFn db args now).1 := by
  simp only [DbInv] at hinv ⊢
  by_cases h : (db.commitEvents.find?
      fun r => r.userId == args.userId && r.sha == args.sha).isSome = true
  · simp only [saveCommit, if_pos h]
    exact hinv
  · cases hf : db.dailyStats.find?
        (fun d => d.userId == args.userId &&
          d.date == dateKeyFn args.committedAt
            (((db.goals.find? fun g => g.userId == args.userId).map
              (fun g => g.timezone)).getD "UTC")) with
    | none =>
      simp only [saveCommit, if_neg h, hf]
      intro d hd
      rcases List.mem_append.mp hd with hd1 | hd2
      · exact hinv d hd1
      · rw [List.mem_singleton.mp hd2]
        intro _
        exact (jsRound_one _).symm
    | some daily =>
      simp only [saveCommit, if_neg h, hf]
      intro d hd
      rcases mem_updateFirst hd with hd1 | ⟨x, _, hdx⟩
      · exact hinv d hd1
      · rw [hdx]
        intro _
        rfl

/-- C6: after any sequence of `saveCommit` operations starting from a store
satisfying the aggregate invariant, every DailyStat row with a positive commit
count still has `avgCommitSize = round(locChanged / commitCount)` (each
inserted commit contributing `additions + deletions` to `locChanged`); the
invariant is preserved both by row creation and by incremental update. -/
theorem c6_daily_stat_avg_invariant (dateKeyFn : Int → String → String) (db : Db)
    (args : CommitArgs) (now : Int) (ops : List (CommitArgs × Int)) (hinv : DbInv db) :
    DbInv (saveCommit dateKeyFn db args now).1 ∧
    DbInv (ops.foldl (fun s op => (saveCommit dateKeyFn s op.1 op.2).1) db) := by
  refine ⟨saveCommit_preserves_inv dateKeyFn db args now hinv, ?_⟩
  induction ops generalizing db with
  | nil => exact hinv
  | cons op rest ih =>
    exact ih _ (saveCommit_preserves_inv dateKeyFn db op.1 op.2 hinv)

theorem c6_daily_stat_avg_invariant_witness :
    DbInv ⟨[], [], []⟩ ∧
    DbInv (saveCommit (fun _ _ => "2024-02-02") ⟨[], [], []⟩
      ⟨"u1", "o/r", none, "abc", "m", "url", 4, 3, 2, 1000⟩ 7).1 := by
  have hinv : DbInv ⟨[], [], []⟩ := by
    intro d hd
    simp at hd
  exact ⟨hinv, (c6_daily_stat_avg_invariant (fun _ _ => "2024-02-02") ⟨[], [], []⟩
    ⟨"u1", "o/r", none, "abc", "m", "url", 4, 3, 2, 1000⟩ 7 [] hinv).1⟩

/-! ## Job enqueue dedupe (`enqueueSyncJob` in `github.ts`) -/

/-- Arguments of the `enqueueSyncJob` internal mutation. -/
structure EnqueueArgs where
  userId : String
  installationId : Int
  repoFullName : Option String
  lookbackDays : Option Int
  reason : JobReason
  deliveryId : Option String
  status : JobStatus
  attempt : Nat
  runAfter : Int
  errorMessage : Option String
deriving DecidableEq, Repr

/-- The row `enqueueSyncJob` inserts. -/
def newSyncJobRow (args : EnqueueArgs) (now : Int) : SyncJob :=
  { userId := args.userId, installationId := args.installationId
    repoFullName := args.repoFullName, lookbackDays := args.lookbackDays
    reason := args.reason, deliveryId := args.deliveryId, status := args.status
    attempt := args.attempt, runAfter := args.runAfter
    createdAt := now, updatedAt := now, errorMessage := args.errorMessage }

/-- One round of the initial-backfill dedupe scan: take the first **50** jobs
of the installation in the given status (the source's `.take(50)` over the
`by_installation_status` index, in insertion order) and look for an
initial-backfill job with the same `lookbackDays`. -/
def hasBackfillDuplicate (jobs : List SyncJob) (installationId : Int)
    (lookbackDays : Option Int) (status : JobStatus) : Bool :=
  (((jobs.filter fun j => j.installationId == installationId && j.status == status).take 50).find?
    fun j => j.reason == JobReason.initial_backfill && j.lookbackDays == lookbackDays).isSome

/-- The webhook-delivery dedupe guard of `enqueueSyncJob`: a truthy
`deliveryId` (present and nonempty) that already appears on a stored job. -/
def deliveryDuplicate (jobs : List SyncJob) (args : EnqueueArgs) : Bool :=
  match args.deliveryId with
  | some d => d != "" && (jobs.find? fun j => j.deliveryId == args.deliveryId).isSome
  | none => false

/-- `enqueueSyncJob` from `github.ts`: a truthy `deliveryId` that already
appears on a stored job dedupes the insert; an initial-backfill job with a
defined `lookbackDays` is deduped against the first 50 pending and first 50
processing jobs of its installation; otherwise a new row is inserted. -/
def enqueueSyncJob (jobs : List SyncJob) (args : EnqueueArgs) (now : Int) : List SyncJob :=
  if deliveryDuplicate jobs args then jobs
  else if args.reason == JobReason.initial_backfill && args.lookbackDays.isSome
      && (hasBackfillDuplicate jobs args.installationId args.lookbackDays JobStatus.pending
          || hasBackfillDuplicate jobs args.installationId args.lookbackDays
              JobStatus.processing) then
    jobs
  else
    jobs ++ [newSyncJobRow args now]

/-- A stored pending `push` job used to pad the dedupe scan window. -/
def pushJobC5 : SyncJob :=
  { userId := "u", installationId := 1, repoFullName := none, lookbackDays := none
    reason := JobReason.push, deliveryId := none, status := JobStatus.pending
    attempt := 0, runAfter := 0, createdAt := 0, updatedAt := 0, errorMessage := none }

/-- A stored pending initial-backfill job with `lookbackDays = 90`. -/
def initJobC5 : SyncJob :=
  { userId := "u", installationId := 1, repoFullName := none, lookbackDays := some 90
    reason := JobReason.initial_backfill, deliveryId := none, status := JobStatus.pending
    attempt := 0, runAfter := 0, createdAt := 0, updatedAt := 0, errorMessage := none }

/-- A store holding 50 pending `push` jobs of installation 1 followed by the
pending initial-backfill(90) job: the duplicate sits just past the 50-job
dedupe scan window. -/
def jobsC5 : List SyncJob :=
  List.replicate 50 pushJobC5 ++ [initJobC5]

/-- Enqueue arguments duplicating the stored initial-backfill(90) job. -/
def argsC5 : EnqueueArgs :=
  { userId := "u", installationId := 1, repoFullName := none, lookbackDays := some 90
    reason := JobReason.initial_backfill, deliveryId := none, status := JobStatus.pending
    attempt := 0, runAfter := 0, errorMessage := none }

/-- Matches a stored pending initial-backfill job of installation 1 with
`lookbackDays = 90`. -/
def isInitial90Pending (j : SyncJob) : Bool :=
  j.reason == JobReason.initial_backfill && j.installationId == 1 &&
    j.lookbackDays == some 90 && j.status == JobStatus.pending

/-- C5 is false as stated: the dedupe scan reads only the first 50 jobs of the
installation per status, so with 50 pending push jobs ahead of it a pending
initial-backfill job with the same (installation, lookbackDays) is missed and
a second such job is inserted. -/
theorem c5_counterexample :
    jobsC5.countP isInitial90Pending = 1 ∧
    (enqueueSyncJob jobsC5 argsC5 0).countP isInitial90Pending = 2 := by decide

/-- C5 (amended): enqueueing an initial-backfill job with a defined
`lookbackDays` inserts no new row whenever a matching unresolved duplicate is
found by the bounded dedupe scan — i.e. among the first 50 stored jobs of the
installation in status pending, or the first 50 in status processing. -/
theorem c5_enqueue_backfill_dedupe (jobs : List SyncJob) (args : EnqueueArgs) (now : Int)
    (hr : args.reason = JobReason.initial_backfill)
    (hl : args.lookbackDays.isSome = true)
    (hd : hasBackfillDuplicate jobs args.installationId args.lookbackDays
            JobStatus.pending = true ∨
          hasBackfillDuplicate jobs args.installationId args.lookbackDays
            JobStatus.processing = true) :
    enqueueSyncJob jobs args now = jobs := by
  have hb : (args.reason == JobReason.initial_backfill) = true := by
    rw [hr]
    rfl
  have hcond : (args.reason == JobReason.initial_backfill && args.lookbackDays.isSome
      && (hasBackfillDuplicate jobs args.installationId args.lookbackDays JobStatus.pending
          || hasBackfillDuplicate jobs args.installationId args.lookbackDays
              JobStatus.processing)) = true := by
    rw [hb, hl]
    rcases hd with hd | hd <;> simp [hd]
  by_cases h1 : deliveryDuplicate jobs args = true
  · unfold enqueueSyncJob
    rw [if_pos h1]
  · unfold enqueueSyncJob
    rw [if_neg h1, if_pos hcond]

theorem c5_enqueue_backfill_dedupe_witness :
    enqueueSyncJob [initJobC5] argsC5 0 = [initJobC5] :=
  c5_enqueue_backfill_dedupe [initJobC5] argsC5 0 rfl rfl (Or.inl (by decide))

/-! ## Reminder engine tick (`sendSmartReminders` in the telegram action module) -/

/-- `const RECENT_COMMIT_GRACE_MS = 90 * 60 * 1000`. -/
def RECENT_COMMIT_GRACE_MS : Int := 90 * 60 * 1000

/-- `const ZERO_PUSH_EXTRA_HOURS = new Set([19, 20])`. -/
def ZERO_PUSH_EXTRA_HOURS : List Int := [19, 20]

/-- `const ZERO_PUSH_CRITICAL_HOURS = new Set([22, 23])`. -/
def ZERO_PUSH_CRITICAL_HOURS : List Int := [22, 23]

/-- Today's stats slice returned by `getReminderContext`. -/
structure ReminderStats where
  commitCount : Int
  locChanged : Int
deriving DecidableEq, Repr

/-- The goals slice `sendSmartReminders` reads. -/
structure ReminderGoals where
  commitsPerDay : Int
  locPerDay : Int
  pushByHour : Int
deriving DecidableEq, Repr

/-- The per-user reminder context returned by `getReminderContext`. -/
structure ReminderContext where
  chatId : String
  quietHoursStart : Option Int
  quietHoursEnd : Option Int
  lastNotifiedAt : Option Int
  timeZone : String
  stats : Option ReminderStats
  goals : Option ReminderGoals
  lastCommitAt : Option Int
deriving DecidableEq, Repr

/-- Tick environment: `hourOf` and `dateKeyOf` stand for the `Intl`-based
`hourInTimeZone` and `dateKeyInTimeZone` host calls, `now` for `Date.now()`. -/
structure TickEnv where
  hourOf : Int → String → Int
  dateKeyOf : Int → String → String
  now : Int

/-- The per-user decision procedure of `sendSmartReminders` (escalation-tier
revision): quiet hours, recent-commit grace, goal defaults (1 commit, 50 LOC,
push-by 18), the three trigger conditions, and the same-local-day-and-hour
dedupe against `lastNotifiedAt`.  Returns whether the user is messaged. -/
def shouldNotify (env : TickEnv) (rc : ReminderContext) : Bool :=
  if rc.chatId == "" then false
  else
    let hour := env.hourOf env.now rc.timeZone
    if isQuietHour hour rc.quietHoursStart rc.quietHoursEnd then false
    else if (match rc.lastCommitAt with
        | some t => t != 0 && decide (env.now - t < RECENT_COMMIT_GRACE_MS)
        | none => false) then false
    else
      let commitGoal : Int := (rc.goals.map fun g => g.commitsPerDay).getD 1
      let locGoal : Int := (rc.goals.map fun g => g.locPerDay).getD 50
      let pushByHour : Int := (rc.goals.map fun g => g.pushByHour).getD 18
      let commitCount : Int := (rc.stats.map fun s => s.commitCount).getD 0
      let locChanged : Int := (rc.stats.map fun s => s.locChanged).getD 0
      let needsCommit := decide (0 < commitGoal) && decide (commitCount < commitGoal)
      let needsLoc := decide (0 < locGoal) && decide (locChanged < locGoal)
      let missedGoals := (decide (0 < commitGoal) || decide (0 < locGoal)) &&
        (needsCommit || needsLoc)
      let noPushesToday := commitCount == 0
      let sendNormal := hour == pushByHour && missedGoals
      let sendFollowUp := noPushesToday && ZERO_PUSH_EXTRA_HOURS.contains hour
      let sendCritical := noPushesToday && ZERO_PUSH_CRITICAL_HOURS.contains hour
      if !sendNormal && !sendFollowUp && !sendCritical then false
      else if (match rc.lastNotifiedAt with
          | some t => t != 0 &&
              (env.dateKeyOf t rc.timeZone == env.dateKeyOf env.now rc.timeZone &&
               env.hourOf t rc.timeZone == hour)
          | none => false) then false
      else if !sendFollowUp && !sendCritical && !missedGoals then false
      else true

/-- The `for (const connection of connections)` loop of `sendSmartReminders`.
Connections with no reminder context are skipped (`if (!reminderContext)
continue`).  `sendOk` says whether the Telegram send for a chat id succeeds;
in the source a failed `sendTelegramMessage` throws and nothing in the loop
catches, so the exception aborts the whole action.  The result is the list of
chat ids notified before any failure, paired with the propagated error. -/
def sendSmartReminders (env : TickEnv) (sendOk : String → Bool) :
    List (Option ReminderContext) → List String × Option String
  | [] => ([], none)
  | none :: rest => sendSmartReminders env sendOk rest
  | some rc :: rest =>
    if shouldNotify env rc then
      if sendOk rc.chatId then
        let r := sendSmartReminders env sendOk rest
        (rc.chatId :: r.1, r.2)
      else
        ([], some "TELEGRAM_SEND_FAILED")
    else sendSmartReminders env sendOk rest

/-- A tick environment whose local hour is always 18 (the default push-by
hour). -/
def envC9 : TickEnv :=
  { hourOf := fun _ _ => 18, dateKeyOf := fun _ _ => "2026-01-01", now := 0 }

/-- First connection: eligible for a goal nudge (no stats, default goals). -/
def rcC9a : ReminderContext :=
  { chatId := "chatA", quietHoursStart := none, quietHoursEnd := none
    lastNotifiedAt := none, timeZone := "UTC", stats := none, goals := none
    lastCommitAt := none }

/-- Second connection: equally eligible for a goal nudge. -/
def rcC9b : ReminderContext :=
  { chatId := "chatB", quietHoursStart := none, quietHoursEnd := none
    lastNotifiedAt := none, timeZone := "UTC", stats := none, goals := none
    lastCommitAt := none }

/-- The messaging API fails exactly for the first connection's chat. -/
def sendOkC9 (chatId : String) : Bool :=
  !(chatId == "chatA")

/-- C9 fails on the code: with two eligible connections and a messaging-API
failure on the first, the uncaught exception aborts the tick — the second
connection satisfies every send condition yet is never notified. -/
theorem c9_send_failure_aborts_tick :
    shouldNotify envC9 rcC9b = true ∧
    sendSmartReminders envC9 sendOkC9 [some rcC9a, some rcC9b]
      = ([], some "TELEGRAM_SEND_FAILED") := by decide

end CommitPulse
